import Mathlib

/-!
Verification of the turn-orchestration core of the `pymol-agent` repository.

The development shallowly embeds the Python sources `agent.py` and
`pymol_interface.py`:

* pure text manipulation (`str.strip`, `str.lower`, `"sep".join`, the
  command-extraction regex) becomes executable functions on `List Char` /
  `String`;
* the external collaborators (the Anthropic client, the PyMOL engine's
  `cmd` object, `input()`) become explicit oracle parameters;
* the mutable module-level state of the loop (`conversation_history`,
  `mode`, `pending_outputs`) becomes an explicit `AgentState` threaded
  through a step function, and the PyMOL singleton becomes an explicit
  `SessionSt` record.
-/

namespace PymolAgent

/-! ## Python string primitives

`pySpace` is the ASCII whitespace set recognised by Python's `str.strip`
(space, tab, newline, carriage return, vertical tab, form feed).
-/

def pySpace (c : Char) : Bool :=
  c == ' ' || c == '\t' || c == '\n' || c == '\r' ||
  c == Char.ofNat 11 || c == Char.ofNat 12

/-- Python `str.strip()` on the character list of a string. -/
def stripChars (l : List Char) : List Char :=
  ((l.dropWhile pySpace).reverse.dropWhile pySpace).reverse

/-- Python `str.strip()`. -/
def stripStr (s : String) : String :=
  String.mk (stripChars s.data)

/-- Python `str.lower()` (the control keywords compared in the loop are ASCII,
so ASCII case mapping is faithful here). -/
def lowerStr (s : String) : String :=
  String.mk (s.data.map Char.toLower)

/-- Python `sep.join(l)`: the elements of `l` with `sep` placed
between each consecutive pair. -/
def joinSep (sep : String) : List String → String
  | [] => ""
  | [x] => x
  | x :: y :: ys => x ++ sep ++ joinSep sep (y :: ys)

/-! ## Substring search

`startsWithL pat s` decides whether `pat` is an initial segment of `s`;
`splitAtSub pat s` returns `some (a, b)` with `s = a ++ pat ++ b` for the
leftmost occurrence of `pat` in `s`, and `none` when `pat` does not occur.
These two functions are the engine of the embedding of the regular
expression `<pymol>(.*?)</pymol>` used by `agent.py`.
-/

def startsWithL : List Char → List Char → Bool
  | [], _ => true
  | _ :: _, [] => false
  | p :: ps, c :: cs => p == c && startsWithL ps cs

def splitAtSub (pat : List Char) : List Char → Option (List Char × List Char)
  | [] => if pat = [] then some ([], []) else none
  | c :: cs =>
    if startsWithL pat (c :: cs) then some ([], (c :: cs).drop pat.length)
    else
      match splitAtSub pat cs with
      | some (a, b) => some (c :: a, b)
      | none => none

/-! ## Command extraction (`agent.py`, `extract_commands`)

`agent.py` pulls commands out of a model reply with the regular expression
`<pymol>(.*?)</pymol>` under `re.DOTALL` and keeps the stripped non-empty
captures.  For this pattern, `re.findall` behaves as: find the leftmost
occurrence of `<pymol>`, pair it with the nearest following `</pymol>`
(lazy `.*?`, with `.` matching newlines), capture the text in between, and
resume scanning after the closing tag; an opening tag with no closing tag
after it contributes nothing.  `extractLoop` implements exactly that scan;
its fuel is bounded by the input length, which suffices because every
iteration consumes at least the two tags (`extractLoop_congr` shows the
result does not depend on the exact fuel). -/

def openTag : List Char := '<' :: "pymol>".data

def closeTag : List Char := '<' :: "/pymol>".data

def extractLoop : Nat → List Char → List (List Char)
  | 0, _ => []
  | fuel + 1, s =>
    match splitAtSub openTag s with
    | none => []
    | some (_, r1) =>
      match splitAtSub closeTag r1 with
      | none => []
      | some (body, r2) => body :: extractLoop fuel r2

def extractRaw (s : List Char) : List (List Char) :=
  extractLoop s.length s

/-- The filter-and-trim step of the list comprehension in
`extract_commands`: keep `m.strip()` when it is non-empty. -/
def keepStripped (m : List Char) : Option String :=
  let t := stripChars m
  if t = [] then none else some (String.mk t)

/-- Function `extract_commands` from `agent.py`. -/
def extract_commands (s : String) : List String :=
  (extractRaw s.data).filterMap keepStripped

/-- Freedom from `'<'`: the sufficient condition under which a piece of text can
neither contain nor help form a `<pymol>`/`</pymol>` tag. -/
def LtFree (l : List Char) : Prop := ∀ c ∈ l, c ≠ '<'

instance (l : List Char) : Decidable (LtFree l) := by
  unfold LtFree
  infer_instance

/-- Interleaving: `renderBlocks s0 pairs` interleaves plain text with well-formed command
blocks: `s0 <pymol>b1</pymol> s1 <pymol>b2</pymol> s2 ...`. -/
def renderBlocks : List Char → List (List Char × List Char) → List Char
  | s0, [] => s0
  | s0, (b, sep) :: rest => s0 ++ openTag ++ b ++ closeTag ++ renderBlocks sep rest

/-! ## Turn orchestrator (`agent.py`, `run_agent`)

The loop's mutable locals become an explicit `AgentState`; the Anthropic
client becomes an oracle `llm` mapping the message list to either a reply
or a raised `APIError` message; `execute_command`'s outcome for a command
becomes an oracle `exec` (an `Except` value: raised exception message or
captured output); `get_session_state()`'s report for the current turn is
the `sessionState` argument.  `input()` supplies `rawInput`.  Printing to
the terminal has no effect on the loop state and is not modelled. -/

inductive Mode
  | guided
  | expert
deriving DecidableEq

def Mode.label : Mode → String
  | .guided => "guided"
  | .expert => "expert"

inductive Role
  | user
  | assistant
deriving DecidableEq, BEq

structure Turn where
  role : Role
  content : String
deriving DecidableEq

structure AgentState where
  history : List Turn
  mode : Mode
  pending : List String
deriving DecidableEq

/-- One loop iteration ends either back at the input prompt or, after a
quit keyword, with the loop broken (after which `run_agent` closes the
PyMOL session). -/
inductive StepResult
  | next (st : AgentState)
  | quitLoop (st : AgentState)
deriving DecidableEq

def quitWords : List String := ["quit", "exit", "bye"]

/-- Python's `repr` on a command string, as used by the loop's repr
format specifier (commands are plain text; the quote/backslash escaping
of `repr` is not exercised by the descriptors' role in the claims, so the
embedding wraps the text in single quotes). -/
def pyRepr (s : String) : String :=
  String.mk (Char.ofNat 39 :: s.data ++ [Char.ofNat 39])

/-- The failure descriptor appended when `execute_command` raises: two
spaces, the word Command, the repr of the command, the words failed and
the exception text. -/
def failDesc (c e : String) : String :=
  "  Command " ++ pyRepr c ++ " failed: " ++ e

/-- The success descriptor appended for non-empty output: two spaces,
the repr of the command, an arrow, and the captured output. -/
def okDesc (c out : String) : String :=
  "  " ++ pyRepr c ++ " → " ++ out

/-- The `for cmd in commands` loop of `run_agent`: each command is
attempted; a raise appends a failure descriptor and continues; success
appends a success descriptor only when the output is non-empty. -/
def processCommands (exec : String → Except String String) :
    List String → List String → List String
  | pending, [] => pending
  | pending, c :: cs =>
    match exec c with
    | .error e => processCommands exec (pending ++ [failDesc c e]) cs
    | .ok out =>
      if out = "" then processCommands exec pending cs
      else processCommands exec (pending ++ [okDesc c out]) cs

/-- The outcome of one command as a pending-outputs contribution. -/
def cmdDescriptor (exec : String → Except String String) (c : String) :
    Option String :=
  match exec c with
  | .error e => some (failDesc c e)
  | .ok out => if out = "" then none else some (okDesc c out)

/-- The user message composed in the `BuildingContext` phase of
`run_agent` (lines 81–93): the raw user text followed by the
`"\n"`-joined context parts — a fresh session-state snapshot, the mode
label, and, when `pending_outputs` is non-empty, their rendering. -/
def buildUserMessage (userInput sessionState : String) (mode : Mode)
    (pending : List String) : String :=
  let baseParts : List String :=
    ["\n\nCurrent PyMOL session state:\n" ++ sessionState,
     "Current mode: " ++ mode.label]
  let parts :=
    if pending = [] then baseParts
    else baseParts ++ ["Outputs from commands executed last turn:\n" ++ joinSep "\n" pending]
  userInput ++ joinSep "\n" parts

/-- One iteration of the `while True` loop of `run_agent`. -/
def runAgentStep (llm : List Turn → Except String String)
    (exec : String → Except String String)
    (sessionState : String) (st : AgentState) (rawInput : String) : StepResult :=
  let userInput := stripStr rawInput
  if userInput = "" then .next st
  else if lowerStr userInput ∈ quitWords then .quitLoop st
  else if lowerStr userInput = "guided" then .next ⟨st.history, Mode.guided, st.pending⟩
  else if lowerStr userInput = "expert" then .next ⟨st.history, Mode.expert, st.pending⟩
  else
    let msg := buildUserMessage userInput sessionState st.mode st.pending
    let hist1 := st.history ++ [⟨Role.user, msg⟩]
    match llm hist1 with
    | .error _ => .next ⟨st.history, st.mode, []⟩
    | .ok reply =>
      .next ⟨hist1 ++ [⟨Role.assistant, reply⟩], st.mode,
             processCommands exec [] (extract_commands reply)⟩

/-- The environment one loop iteration interacts with: the line read from
the prompt and the behaviour of the two external collaborators during the
iteration. -/
structure TurnEnv where
  rawInput : String
  llm : List Turn → Except String String
  exec : String → Except String String
  sessionState : String

/-- Function `run_agent` from `agent.py`, driven by a finite script of loop-iteration environments.
Returns the final state and whether the loop was exited through a quit
keyword (in the source, `close_session()` runs exactly then or on EOF). -/
def run_agent : AgentState → List TurnEnv → AgentState × Bool
  | st, [] => (st, false)
  | st, e :: es =>
    match runAgentStep e.llm e.exec e.sessionState st e.rawInput with
    | .next st2 => run_agent st2 es
    | .quitLoop st2 => (st2, true)

/-- The state `run_agent` starts from. -/
def initialAgentState (startMode : Mode) : AgentState :=
  ⟨[], startMode, []⟩

/-! ## Substring occurrence as a proposition -/

/-- Occurrence of `p` as a contiguous substring of `s`. -/
def isSubstr (p s : String) : Prop :=
  ∃ a b, s.data = a ++ p.data ++ b

def containsSub (p s : String) : Bool :=
  (splitAtSub p.data s.data).isSome

/-! ## Session state reporter (`pymol_interface.py`, `get_session_state`)

The PyMOL `cmd` queries used by the reporter become a `SessionView`
record: the engine's object list, its selection-name list (in native
enumeration order), and its per-name atom count and chain list. -/

structure SessionView where
  objects : List String
  selections : List String
  atomCount : String → Nat
  chainsOf : String → List String

/-- One line of the objects section: a dash, the object name, its atom
count, and the comma-join of its chains — with the word none substituted
when that join is falsy, i.e. the empty string (the Python source reads
join of chains, or-else none). -/
def objectLine (v : SessionView) (obj : String) : String :=
  let joined := joinSep ", " (v.chainsOf obj)
  "  - " ++ obj ++ ": " ++ toString (v.atomCount obj) ++ " atoms, chains: " ++
    (if joined = "" then "none" else joined)

/-- One line of the selections section: a dash, the selection name and
its atom count. -/
def selectionLine (v : SessionView) (sel : String) : String :=
  "  - " ++ sel ++ ": " ++ toString (v.atomCount sel) ++ " atoms"

/-- Function `get_session_state` from `pymol_interface.py`. -/
def get_session_state (v : SessionView) : String :=
  let lines :=
    (if v.objects = [] then ["No objects loaded."]
     else "Loaded objects:" :: v.objects.map (objectLine v)) ++
    (if v.selections = [] then []
     else "Active selections:" :: v.selections.map (selectionLine v))
  joinSep "\n" lines

/-! ## Command executor (`pymol_interface.py`, `execute_command`)

`sys.stdout` becomes an explicit channel value inside a `SysState`; the
engine's `cmd.do` becomes an oracle returning either a raised exception's
message or the text it prints to the channel that is current during the
call (here: always the fresh `StringIO` buffer installed by the
executor).  The `try/finally` is embedded directly: the `finally`
assignment to `sys.stdout` happens on both the normal and the raising
path, and a raise is returned as `.error` to the caller untouched. -/

inductive OutChannel
  | standard
  | buffer (contents : String)
deriving DecidableEq

structure SysState where
  stdout : OutChannel
deriving DecidableEq

/-- Function `execute_command` from `pymol_interface.py`.  Returns the Python
return value (or the propagated exception) together with the final
interpreter state. -/
def execute_command (sessionDo : String → Except String String)
    (cmdString : String) (st : SysState) : Except String String × SysState :=
  let c := stripStr cmdString
  if c = "" then (.ok "", st)
  else
    let oldStdout := st.stdout
    -- sys.stdout = buf = io.StringIO()
    let bodyOutcome : Except String OutChannel :=
      match sessionDo c with
      | .error e => .error e
      | .ok printed => .ok (OutChannel.buffer printed)
    -- finally: sys.stdout = old_stdout (runs on both paths)
    match bodyOutcome with
    | .error e => (.error e, ⟨oldStdout⟩)
    | .ok buf =>
      let captured :=
        match buf with
        | .buffer s => stripStr s
        | .standard => ""
      (.ok captured, ⟨oldStdout⟩)

/-! ## Session singleton (`pymol_interface.py`, `get_session` / `close_session`)

The module-global `_pymol` handle becomes `current`; `pymol2.PyMOL()`
construction plus `.start()` is recorded by appending a fresh identifier
to `started`, and `.stop()` by appending the stopped identifier to
`stopped`.  `nextId` makes identifiers fresh. -/

structure SessionSt where
  current : Option Nat
  nextId : Nat
  started : List Nat
  stopped : List Nat
deriving DecidableEq

def initSessionSt : SessionSt := ⟨none, 0, [], []⟩

/-- Function `get_session`: start a PyMOL instance if `_pymol is None`, else
return the existing handle. -/
def get_session (st : SessionSt) : Nat × SessionSt :=
  match st.current with
  | some h => (h, st)
  | none =>
    (st.nextId, ⟨some st.nextId, st.nextId + 1, st.started ++ [st.nextId], st.stopped⟩)

/-- Function `close_session`: stop the instance if one is live, else do nothing. -/
def close_session (st : SessionSt) : SessionSt :=
  match st.current with
  | some h => ⟨none, st.nextId, st.started, st.stopped ++ [h]⟩
  | none => st

inductive SessOp
  | acquire
  | release

def applySessOp (st : SessionSt) : SessOp → SessionSt
  | .acquire => (get_session st).2
  | .release => close_session st

def runSessOps (ops : List SessOp) : SessionSt :=
  ops.foldl applySessOp initSessionSt

/-- The single-instance / exactly-once-teardown invariant: identifiers
are started at most once, stopped at most once, only started identifiers
are stopped, and at most one started instance is not yet stopped — the
live one, exactly when the handle is non-`None`. -/
def SessInv (st : SessionSt) : Prop :=
  st.started.Nodup ∧ st.stopped.Nodup ∧
  (∀ h ∈ st.started, h < st.nextId) ∧
  (∀ h ∈ st.stopped, h ∈ st.started) ∧
  (∀ h, st.current = some h → h ∈ st.started ∧ h ∉ st.stopped ∧
        st.started.length = st.stopped.length + 1) ∧
  (st.current = none → st.started.length = st.stopped.length)

/-! ## Per-residue RMSD (`pymol_interface.py`, `per_residue_rmsd`)

The CA atoms collected by `cmd.iterate` become an input list of
`(chain, resi)` pairs (the `iterate` space dict has one entry per distinct
`resi`); `cmd.rms_cur` becomes an oracle from the two selection strings to
either a raised exception or a rational value (the code only ever
compares the value with `0`, so rationals embed the float arithmetic
faithfully here).  Only the returned dict is modelled — the subsequent
B-factor colouring mutates the external session, not the return value;
the dict is represented as the list of key/value insertions, keyed by
`int(resi)` (`pyInt`, with PyMOL residue identifiers being decimal). -/

structure Residue where
  chain : String
  resi : String
deriving DecidableEq

def pyInt (s : String) : Int := (s.toInt?).getD 0

/-- The selection string built for the mobile object: the object name
followed by the chain, residue and CA-atom constraints. -/
def mobileSel (mobile : String) (r : Residue) : String :=
  mobile ++ " and chain " ++ r.chain ++ " and resi " ++ r.resi ++ " and name CA"

/-- The selection string built for the target object: the object name
followed by the chain, residue and CA-atom constraints. -/
def targetSel (target : String) (r : Residue) : String :=
  target ++ " and chain " ++ r.chain ++ " and resi " ++ r.resi ++ " and name CA"

/-- The `val` computed for one residue: `rms_cur`'s value, with a raised
exception mapped to `0.0`. -/
def residueVal (rmsCur : String → String → Except Unit Rat)
    (mobile target : String) (r : Residue) : Rat :=
  match rmsCur (mobileSel mobile r) (targetSel target r) with
  | .error _ => 0
  | .ok v => v

/-- The `for resi, ... in space["residues"].items()` loop, accumulating
`rmsd_by_resi`. -/
def rmsdLoop (rmsCur : String → String → Except Unit Rat)
    (mobile target : String) : List Residue → List (Int × Rat) → List (Int × Rat)
  | [], acc => acc
  | r :: rs, acc =>
    let val := residueVal rmsCur mobile target r
    if 0 ≤ val then rmsdLoop rmsCur mobile target rs (acc ++ [(pyInt r.resi, val)])
    else rmsdLoop rmsCur mobile target rs acc

/-- Function `per_residue_rmsd` from `pymol_interface.py` (its returned dict). -/
def per_residue_rmsd (rmsCur : String → String → Except Unit Rat)
    (mobile target : String) (residues : List Residue) : List (Int × Rat) :=
  rmsdLoop rmsCur mobile target residues []

/-- The per-residue contribution to the returned dict. -/
def rmsdEntry (rmsCur : String → String → Except Unit Rat)
    (mobile target : String) (r : Residue) : Option (Int × Rat) :=
  let val := residueVal rmsCur mobile target r
  if 0 ≤ val then some (pyInt r.resi, val) else none

/-- The input classifications of the `AwaitingInput` state: an input is
conversational when it is non-empty and matches neither a quit keyword
nor a mode keyword. -/
def Conversational (raw : String) : Prop :=
  stripStr raw ≠ "" ∧ lowerStr (stripStr raw) ∉ quitWords ∧
  lowerStr (stripStr raw) ≠ "guided" ∧ lowerStr (stripStr raw) ≠ "expert"

instance (raw : String) : Decidable (Conversational raw) := by
  unfold Conversational
  infer_instance

/-- Modelled from the spec (§4.2), as amended: the report is the objects
section (the single no-objects line, or a header plus one line per
object), with the selections section appended after it whenever one or
more selections exist — also when zero objects are loaded.  The line
formats are those of `objectLine` / `selectionLine`. -/
def sessionReportSpec (v : SessionView) : String :=
  let objSec :=
    if v.objects = [] then "No objects loaded."
    else joinSep "\n" ("Loaded objects:" :: v.objects.map (objectLine v))
  match v.selections with
  | [] => objSec
  | sel :: sels =>
    objSec ++ "\n" ++
      joinSep "\n" ("Active selections:" :: (sel :: sels).map (selectionLine v))

/-! ## Concrete scenarios used by the claim theorems -/

/-- A command executor that always raises. -/
def alwaysRaise : String → Except String String := fun _ => .error "boom"

/-- A model that replies with one embedded command. -/
def replyWithCmd : List Turn → Except String String :=
  fun _ => .ok "run <pymol>c1</pymol>"

/-- A model whose transport fails. -/
def apiDown : List Turn → Except String String := fun _ => .error "api down"

/-- Turn 1: conversational input; the reply embeds a command whose
execution raises, leaving a failure descriptor pending. -/
def scen1Turn1 : TurnEnv := ⟨"hi", replyWithCmd, alwaysRaise, ""⟩

/-- Turn 2: conversational input; the pending descriptor is consumed into
the built context, but the model call fails and the turn is rolled back. -/
def scen1Turn2 : TurnEnv := ⟨"again", apiDown, alwaysRaise, ""⟩

/-- Turn 3: the user quits. -/
def scen1Turn3 : TurnEnv := ⟨"quit", apiDown, alwaysRaise, ""⟩

/-- The failure descriptor produced in turn 1 of the scenario. -/
def scen1Desc : String := failDesc "c1" "boom"

/-- A model replying with three embedded commands. -/
def threeCmdLlm : List Turn → Except String String :=
  fun _ => .ok "<pymol>c1</pymol><pymol>c2</pymol><pymol>c3</pymol>"

/-- An executor for which the second of the three commands raises and the
others succeed with non-empty output. -/
def secondFails : String → Except String String :=
  fun c => if c = "c2" then .error "boom" else .ok ("out-" ++ c)

/-- A session view with no objects but one active selection. -/
def emptyWithSelection : SessionView :=
  ⟨[], ["sel1"], fun _ => 3, fun _ => []⟩

/-- The spec's reporter example: one object `X`, 5 atoms, chains A and B,
no selections. -/
def oneObjectView : SessionView :=
  ⟨["X"], [], fun _ => 5, fun _ => ["A", "B"]⟩

/-- An `rms_cur` oracle that always raises. -/
def errOracle : String → String → Except Unit Rat := fun _ _ => .error ()

/-- An `rms_cur` oracle that always returns the `-1` sentinel. -/
def negOracle : String → String → Except Unit Rat := fun _ _ => .ok (-1)

/-! ## Lemmas and claim theorems -/

theorem startsWithL_iff (pat : List Char) :
    ∀ s, startsWithL pat s = true ↔ ∃ r, s = pat ++ r := by
  induction pat with
  | nil =>
    intro s
    simp [startsWithL]
  | cons p ps ih =>
    intro s
    cases s with
    | nil =>
      simp [startsWithL]
    | cons c cs =>
      simp only [startsWithL, Bool.and_eq_true, beq_iff_eq, ih cs]
      constructor
      · rintro ⟨rfl, r, rfl⟩
        exact ⟨r, rfl⟩
      · rintro ⟨r, h⟩
        injection h with h1 h2
        exact ⟨h1.symm, r, h2⟩

theorem splitAtSub_sound (pat : List Char) :
    ∀ s a b, splitAtSub pat s = some (a, b) → s = a ++ pat ++ b := by
  intro s
  induction s with
  | nil =>
    intro a b h
    by_cases hp : pat = []
    · subst hp
      simp only [splitAtSub, if_pos rfl, Option.some.injEq, Prod.mk.injEq] at h
      obtain ⟨rfl, rfl⟩ := h.symm
      rfl
    · simp [splitAtSub, hp] at h
  | cons c cs ih =>
    intro a b h
    simp only [splitAtSub] at h
    by_cases hs : startsWithL pat (c :: cs) = true
    · obtain ⟨r, hr⟩ := (startsWithL_iff pat (c :: cs)).1 hs
      rw [if_pos hs] at h
      simp only [Option.some.injEq, Prod.mk.injEq] at h
      obtain ⟨ha, hb⟩ := h
      subst ha
      rw [hr, List.drop_left] at hb
      subst hb
      simp [hr]
    · rw [if_neg hs] at h
      cases hrec : splitAtSub pat cs with
      | none => rw [hrec] at h; exact absurd h (by simp)
      | some ab =>
        obtain ⟨a0, b0⟩ := ab
        rw [hrec] at h
        simp only [Option.some.injEq, Prod.mk.injEq] at h
        obtain ⟨ha, hb⟩ := h
        subst ha
        subst hb
        have hcs := ih a0 b0 hrec
        rw [hcs]
        simp

theorem splitAtSub_post_lt (pat : List Char) (hp : pat ≠ []) :
    ∀ s a b, splitAtSub pat s = some (a, b) → b.length < s.length := by
  intro s
  induction s with
  | nil =>
    intro a b h
    simp [splitAtSub, hp] at h
  | cons c cs ih =>
    intro a b h
    simp only [splitAtSub] at h
    by_cases hs : startsWithL pat (c :: cs) = true
    · rw [if_pos hs] at h
      simp only [Option.some.injEq, Prod.mk.injEq] at h
      obtain ⟨ha, hb⟩ := h
      subst hb
      have hlen : pat.length ≥ 1 := by
        cases pat with
        | nil => exact absurd rfl hp
        | cons p ps => simp
      simp only [List.length_drop, List.length_cons]
      omega
    · rw [if_neg hs] at h
      cases hrec : splitAtSub pat cs with
      | none => rw [hrec] at h; exact absurd h (by simp)
      | some ab =>
        obtain ⟨a0, b0⟩ := ab
        rw [hrec] at h
        simp only [Option.some.injEq, Prod.mk.injEq] at h
        obtain ⟨ha, hb⟩ := h
        subst hb
        have := ih a0 b0 hrec
        simp only [List.length_cons]
        omega

theorem splitAtSub_none (pat : List Char) :
    ∀ s, splitAtSub pat s = none → ∀ a b, s ≠ a ++ pat ++ b := by
  intro s
  induction s with
  | nil =>
    intro h a b hab
    have h2 := hab.symm
    simp only [List.append_eq_nil] at h2
    obtain ⟨⟨_, hpat⟩, _⟩ := h2
    simp [splitAtSub, hpat] at h
  | cons c cs ih =>
    intro h a b hab
    simp only [splitAtSub] at h
    by_cases hs : startsWithL pat (c :: cs) = true
    · rw [if_pos hs] at h
      exact absurd h (by simp)
    · rw [if_neg hs] at h
      cases a with
      | nil =>
        apply hs
        rw [startsWithL_iff]
        exact ⟨b, by simpa using hab⟩
      | cons a0 as =>
        simp only [List.cons_append] at hab
        injection hab with h1 h2
        cases hrec : splitAtSub pat cs with
        | none =>
          exact ih hrec as b h2
        | some ab =>
          rw [hrec] at h
          exact absurd h (by simp)

/-- The leftmost occurrence of a pattern beginning with `'<'` in
`s0 ++ pat ++ r` is the explicit one, provided `s0` contains no `'<'`. -/
theorem splitAtSub_boundary (p' : List Char) :
    ∀ s0 r, (∀ c ∈ s0, c ≠ '<') →
      splitAtSub ('<' :: p') (s0 ++ ('<' :: p') ++ r) = some (s0, r) := by
  intro s0
  induction s0 with
  | nil =>
    intro r _
    have hsw : startsWithL ('<' :: p') (('<' :: p') ++ r) = true :=
      (startsWithL_iff _ _).2 ⟨r, rfl⟩
    cases hpr : ('<' :: p') ++ r with
    | nil => simp at hpr
    | cons x xs =>
      simp only [List.nil_append]
      rw [hpr] at hsw ⊢
      simp only [splitAtSub, if_pos hsw]
      rw [← hpr, List.drop_left]
  | cons c cs ih =>
    intro r hlt
    have hc : c ≠ '<' := hlt c (by simp)
    have hsw : startsWithL ('<' :: p') (c :: (cs ++ ('<' :: p') ++ r)) = false := by
      simp only [startsWithL]
      have : ('<' == c) = false := by
        simp only [beq_eq_false_iff_ne]
        exact fun h => hc h.symm
      simp [this]
    simp only [List.cons_append, List.append_assoc] at *
    simp only [splitAtSub]
    rw [if_neg (by simp [hsw])]
    have := ih r (fun x hx => hlt x (by simp [hx]))
    simp only [List.append_assoc] at this
    rw [this]

/-- A pattern beginning with `'<'` does not occur in a `'<'`-free string. -/
theorem splitAtSub_none_of_free (p' : List Char) :
    ∀ s, (∀ c ∈ s, c ≠ '<') → splitAtSub ('<' :: p') s = none := by
  intro s
  induction s with
  | nil => intro _; simp [splitAtSub]
  | cons c cs ih =>
    intro hlt
    have hc : c ≠ '<' := hlt c (by simp)
    have hsw : startsWithL ('<' :: p') (c :: cs) = false := by
      simp only [startsWithL]
      have : ('<' == c) = false := by
        simp only [beq_eq_false_iff_ne]
        exact fun h => hc h.symm
      simp [this]
    simp only [splitAtSub]
    rw [if_neg (by simp [hsw])]
    rw [ih (fun x hx => hlt x (by simp [hx]))]

theorem extractLoop_congr :
    ∀ f1 f2 s, s.length ≤ f1 → s.length ≤ f2 → extractLoop f1 s = extractLoop f2 s := by
  intro f1
  induction f1 with
  | zero =>
    intro f2 s h1 _
    have hs : s = [] := List.length_eq_zero.1 (Nat.le_zero.1 h1)
    subst hs
    cases f2 with
    | zero => rfl
    | succ g =>
      have hnone : splitAtSub openTag [] = none := by decide
      simp [extractLoop, hnone]
  | succ f ih =>
    intro f2 s h1 h2
    cases f2 with
    | zero =>
      have hs : s = [] := List.length_eq_zero.1 (Nat.le_zero.1 h2)
      subst hs
      have hnone : splitAtSub openTag [] = none := by decide
      simp [extractLoop, hnone]
    | succ g =>
      simp only [extractLoop]
      cases hopen : splitAtSub openTag s with
      | none => simp [hopen]
      | some p1 =>
        obtain ⟨a, r1⟩ := p1
        simp only [hopen]
        cases hclose : splitAtSub closeTag r1 with
        | none => simp [hclose]
        | some p2 =>
          obtain ⟨body, r2⟩ := p2
          simp only [hclose]
          have hr1 : r1.length < s.length :=
            splitAtSub_post_lt openTag (by decide) s a r1 hopen
          have hr2 : r2.length < r1.length :=
            splitAtSub_post_lt closeTag (by decide) r1 body r2 hclose
          have := ih g r2 (by omega) (by omega)
          simp [this]

/-- One-step unfolding of `extractRaw`, independent of the fuel plumbing. -/
theorem extractRaw_eq (s : List Char) :
    extractRaw s =
      match splitAtSub openTag s with
      | none => []
      | some (_, r1) =>
        match splitAtSub closeTag r1 with
        | none => []
        | some (body, r2) => body :: extractRaw r2 := by
  unfold extractRaw
  cases hlen : s.length with
  | zero =>
    have hs : s = [] := List.length_eq_zero.1 hlen
    subst hs
    have hnone : splitAtSub openTag [] = none := by decide
    simp [extractLoop, hnone]
  | succ n =>
    simp only [extractLoop]
    cases hopen : splitAtSub openTag s with
    | none => simp [hopen]
    | some p1 =>
      obtain ⟨a, r1⟩ := p1
      simp only [hopen]
      cases hclose : splitAtSub closeTag r1 with
      | none => simp [hclose]
      | some p2 =>
        obtain ⟨body, r2⟩ := p2
        simp only [hclose]
        have hr1 : r1.length < s.length :=
          splitAtSub_post_lt openTag (by decide) s a r1 hopen
        have hr2 : r2.length < r1.length :=
          splitAtSub_post_lt closeTag (by decide) r1 body r2 hclose
        have := extractLoop_congr n r2.length r2 (by omega) (le_refl _)
        simp [extractRaw, this]

theorem extractRaw_free (s : List Char) (h : LtFree s) : extractRaw s = [] := by
  have hnone : splitAtSub openTag s = none := splitAtSub_none_of_free "pymol>".data s h
  rw [extractRaw_eq]
  simp [hnone]

theorem extractRaw_block (s0 b rest : List Char) (h0 : LtFree s0) (hb : LtFree b) :
    extractRaw (s0 ++ openTag ++ b ++ closeTag ++ rest) = b :: extractRaw rest := by
  rw [extractRaw_eq]
  have hopen :
      splitAtSub openTag (s0 ++ openTag ++ b ++ closeTag ++ rest) =
        some (s0, b ++ closeTag ++ rest) := by
    have := splitAtSub_boundary "pymol>".data s0 (b ++ closeTag ++ rest) h0
    simpa [openTag, List.append_assoc] using this
  have hclose :
      splitAtSub closeTag (b ++ closeTag ++ rest) = some (b, rest) := by
    have := splitAtSub_boundary "/pymol>".data b rest hb
    simpa [closeTag, List.append_assoc] using this
  simp only [List.append_assoc] at hopen hclose
  simp [hopen, hclose]

theorem extractRaw_unclosed (s0 b : List Char) (h0 : LtFree s0) (hb : LtFree b) :
    extractRaw (s0 ++ openTag ++ b) = [] := by
  rw [extractRaw_eq]
  have hopen : splitAtSub openTag (s0 ++ openTag ++ b) = some (s0, b) := by
    have := splitAtSub_boundary "pymol>".data s0 b h0
    simpa [openTag, List.append_assoc] using this
  have hnone : splitAtSub closeTag b = none := splitAtSub_none_of_free "/pymol>".data b hb
  simp only [List.append_assoc] at hopen
  simp [hopen, hnone]

theorem extractRaw_renderBlocks :
    ∀ (pairs : List (List Char × List Char)) (s0 : List Char), LtFree s0 →
      (∀ p ∈ pairs, LtFree p.1 ∧ LtFree p.2) →
      extractRaw (renderBlocks s0 pairs) = pairs.map Prod.fst := by
  intro pairs
  induction pairs with
  | nil =>
    intro s0 h0 _
    simpa [renderBlocks] using extractRaw_free s0 h0
  | cons p rest ih =>
    intro s0 h0 hall
    obtain ⟨b, sep⟩ := p
    have hb : LtFree b := (hall (b, sep) (by simp)).1
    have hsep : LtFree sep := (hall (b, sep) (by simp)).2
    simp only [renderBlocks]
    rw [extractRaw_block s0 b (renderBlocks sep rest) h0 hb]
    rw [ih sep hsep (fun q hq => hall q (by simp [hq]))]
    simp

theorem containsSub_iff (p s : String) : containsSub p s = true ↔ isSubstr p s := by
  unfold containsSub isSubstr
  constructor
  · intro h
    cases hsp : splitAtSub p.data s.data with
    | none => rw [hsp] at h; simp at h
    | some ab =>
      obtain ⟨a, b⟩ := ab
      exact ⟨a, b, splitAtSub_sound p.data s.data a b hsp⟩
  · rintro ⟨a, b, hab⟩
    cases hsp : splitAtSub p.data s.data with
    | none => exact absurd hab (splitAtSub_none p.data s.data hsp a b)
    | some ab => simp

theorem isSubstr_refl (s : String) : isSubstr s s :=
  ⟨[], [], by simp⟩

theorem isSubstr_append_left (p t s : String) (h : isSubstr p s) :
    isSubstr p (t ++ s) := by
  obtain ⟨a, b, hab⟩ := h
  exact ⟨t.data ++ a, b, by simp [String.data_append, hab]⟩

theorem isSubstr_append_right (p s t : String) (h : isSubstr p s) :
    isSubstr p (s ++ t) := by
  obtain ⟨a, b, hab⟩ := h
  exact ⟨a, b ++ t.data, by simp [String.data_append, hab]⟩

theorem isSubstr_joinSep (sep d : String) :
    ∀ l : List String, d ∈ l → isSubstr d (joinSep sep l) := by
  intro l
  induction l with
  | nil => intro h; simp at h
  | cons x xs ih =>
    intro hmem
    cases xs with
    | nil =>
      simp at hmem
      subst hmem
      exact isSubstr_refl d
    | cons y ys =>
      rcases List.mem_cons.1 hmem with h | h
      · subst h
        simp only [joinSep]
        exact isSubstr_append_right _ _ _
          (isSubstr_append_right _ _ _ (isSubstr_refl d))
      · simp only [joinSep]
        exact isSubstr_append_left _ _ _ (ih h)

theorem isSubstr_trans (p q s : String) (h1 : isSubstr p q) (h2 : isSubstr q s) :
    isSubstr p s := by
  obtain ⟨a, b, hab⟩ := h1
  obtain ⟨c, d, hcd⟩ := h2
  exact ⟨c ++ a, b ++ d, by simp [hcd, hab]⟩

/-- Every pending descriptor is textually contained in the user message
built for the next conversational turn. -/
theorem isSubstr_buildUserMessage (u ss : String) (m : Mode)
    (pending : List String) (d : String) (hd : d ∈ pending) :
    isSubstr d (buildUserMessage u ss m pending) := by
  have hpend : pending ≠ [] := by
    intro h; subst h; simp at hd
  simp only [buildUserMessage, if_neg hpend]
  apply isSubstr_append_left
  apply isSubstr_trans d
    ("Outputs from commands executed last turn:\n" ++ joinSep "\n" pending)
  · exact isSubstr_append_left _ _ _ (isSubstr_joinSep "\n" d pending hd)
  · exact isSubstr_joinSep _ _ _ (by simp)

/-- The mode label is textually contained in every built user message. -/
theorem modeLabel_in_buildUserMessage (u ss : String) (m : Mode)
    (pending : List String) :
    isSubstr ("Current mode: " ++ m.label) (buildUserMessage u ss m pending) := by
  unfold buildUserMessage
  apply isSubstr_append_left
  by_cases hpend : pending = []
  · rw [if_pos hpend]
    exact isSubstr_joinSep _ _ _ (by simp)
  · rw [if_neg hpend]
    exact isSubstr_joinSep _ _ _ (by simp)

theorem rmsdLoop_eq_filterMap (rmsCur : String → String → Except Unit Rat)
    (mobile target : String) :
    ∀ (rs : List Residue) (acc : List (Int × Rat)),
      rmsdLoop rmsCur mobile target rs acc =
        acc ++ rs.filterMap (rmsdEntry rmsCur mobile target) := by
  intro rs
  induction rs with
  | nil => intro acc; simp [rmsdLoop]
  | cons r rest ih =>
    intro acc
    simp only [rmsdLoop, rmsdEntry]
    by_cases hv : (0 : Rat) ≤ residueVal rmsCur mobile target r
    · rw [if_pos hv, ih]
      simp [List.filterMap_cons, rmsdEntry, if_pos hv]
    · rw [if_neg hv, ih]
      simp [List.filterMap_cons, rmsdEntry, if_neg hv]

/-! ## Helper lemmas about the orchestrator -/

theorem processCommands_eq_filterMap (exec : String → Except String String) :
    ∀ (cmds pending : List String),
      processCommands exec pending cmds = pending ++ cmds.filterMap (cmdDescriptor exec) := by
  intro cmds
  induction cmds with
  | nil => intro pending; simp [processCommands]
  | cons c cs ih =>
    intro pending
    cases hx : exec c with
    | error e =>
      simp only [processCommands, hx, ih]
      simp [List.filterMap_cons, cmdDescriptor, hx]
    | ok out =>
      by_cases hout : out = ""
      · simp only [processCommands, hx, if_pos hout, ih]
        simp [List.filterMap_cons, cmdDescriptor, hx, hout]
      · simp only [processCommands, hx, if_neg hout, ih]
        simp [List.filterMap_cons, cmdDescriptor, hx, hout]

theorem runAgentStep_conv (llm : List Turn → Except String String)
    (exec : String → Except String String) (sessionState : String)
    (st : AgentState) (raw : String) (h : Conversational raw) :
    runAgentStep llm exec sessionState st raw =
      match llm (st.history ++
          [⟨Role.user, buildUserMessage (stripStr raw) sessionState st.mode st.pending⟩]) with
      | .error _ => .next ⟨st.history, st.mode, []⟩
      | .ok reply =>
        .next ⟨st.history ++
            [⟨Role.user, buildUserMessage (stripStr raw) sessionState st.mode st.pending⟩,
             ⟨Role.assistant, reply⟩], st.mode,
           processCommands exec [] (extract_commands reply)⟩ := by
  obtain ⟨h1, h2, h3, h4⟩ := h
  simp only [runAgentStep, if_neg h1, if_neg h2, if_neg h3, if_neg h4]
  cases llm (st.history ++
      [⟨Role.user, buildUserMessage (stripStr raw) sessionState st.mode st.pending⟩]) with
  | error e => simp
  | ok reply => simp

theorem runAgentStep_quit (llm : List Turn → Except String String)
    (exec : String → Except String String) (sessionState : String)
    (st : AgentState) (raw : String)
    (h1 : stripStr raw ≠ "") (h2 : lowerStr (stripStr raw) ∈ quitWords) :
    runAgentStep llm exec sessionState st raw = .quitLoop st := by
  simp only [runAgentStep, if_neg h1, if_pos h2]

theorem strAppend_assoc (a b c : String) : a ++ b ++ c = a ++ (b ++ c) := by
  apply String.ext
  simp [String.data_append, List.append_assoc]

theorem joinSep_append (sep : String) :
    ∀ a b : List String, a ≠ [] → b ≠ [] →
      joinSep sep (a ++ b) = joinSep sep a ++ sep ++ joinSep sep b := by
  intro a
  induction a with
  | nil => intro b h _; exact absurd rfl h
  | cons x xs ih =>
    intro b _ hb
    cases xs with
    | nil =>
      cases b with
      | nil => exact absurd rfl hb
      | cons y ys => simp [joinSep]
    | cons z zs =>
      have step := ih b (by simp) hb
      have hcons : ∃ w ws, (z :: zs) ++ b = w :: ws := ⟨z, zs ++ b, by simp⟩
      obtain ⟨w, ws, hw⟩ := hcons
      calc joinSep sep ((x :: z :: zs) ++ b)
          = x ++ sep ++ joinSep sep ((z :: zs) ++ b) := by
            simp [joinSep]
        _ = x ++ sep ++ (joinSep sep (z :: zs) ++ sep ++ joinSep sep b) := by rw [step]
        _ = (x ++ sep ++ joinSep sep (z :: zs)) ++ sep ++ joinSep sep b := by
            simp [strAppend_assoc]
        _ = joinSep sep (x :: z :: zs) ++ sep ++ joinSep sep b := by
            simp only [joinSep]

theorem get_session_state_eq_spec (v : SessionView) :
    get_session_state v = sessionReportSpec v := by
  unfold get_session_state sessionReportSpec
  cases hsel : v.selections with
  | nil =>
    simp only [hsel]
    by_cases hobj : v.objects = []
    · simp [hobj, joinSep]
    · simp [hobj]
  | cons sel sels =>
    have hne : sel :: sels ≠ ([] : List String) := by simp
    rw [if_neg hne]
    by_cases hobj : v.objects = []
    · rw [if_pos hobj, if_pos hobj]
      rw [joinSep_append "\n" ["No objects loaded."] _ (by simp) (by simp)]
      simp [joinSep]
    · rw [if_neg hobj, if_neg hobj]
      rw [joinSep_append "\n" ("Loaded objects:" :: v.objects.map (objectLine v)) _
        (by simp) (by simp)]

theorem sessInv_init : SessInv initSessionSt := by
  unfold SessInv initSessionSt
  refine ⟨by simp, by simp, by simp, by simp, by simp, by simp⟩

theorem sessInv_get (st : SessionSt) (h : SessInv st) : SessInv (get_session st).2 := by
  obtain ⟨hnd1, hnd2, hbound, hsub, hlive, hnone⟩ := h
  cases hc : st.current with
  | some x =>
    have hstep : (get_session st).2 = st := by simp [get_session, hc]
    rw [hstep]
    exact ⟨hnd1, hnd2, hbound, hsub, hlive, hnone⟩
  | none =>
    have hstep : (get_session st).2 =
        ⟨some st.nextId, st.nextId + 1, st.started ++ [st.nextId], st.stopped⟩ := by
      simp [get_session, hc]
    rw [hstep]
    simp only [SessInv]
    have hlen := hnone hc
    have hfresh : st.nextId ∉ st.started := fun hm => absurd (hbound _ hm) (by omega)
    have hfresh2 : st.nextId ∉ st.stopped := fun hm => hfresh (hsub _ hm)
    refine ⟨?_, hnd2, ?_, ?_, ?_, ?_⟩
    · simp [List.nodup_append, hnd1, hfresh]
    · intro x hx
      rcases List.mem_append.1 hx with hx | hx
      · have := hbound _ hx; omega
      · simp at hx; omega
    · intro x hx
      exact List.mem_append.2 (Or.inl (hsub _ hx))
    · intro y hy
      simp only [Option.some.injEq] at hy
      subst hy
      refine ⟨List.mem_append.2 (Or.inr (by simp)), hfresh2, ?_⟩
      simp [hlen]
    · intro hy
      exact absurd hy (by simp)

theorem sessInv_close (st : SessionSt) (h : SessInv st) : SessInv (close_session st) := by
  obtain ⟨hnd1, hnd2, hbound, hsub, hlive, hnone⟩ := h
  cases hc : st.current with
  | none =>
    have hstep : close_session st = st := by simp [close_session, hc]
    rw [hstep]
    exact ⟨hnd1, hnd2, hbound, hsub, hlive, hnone⟩
  | some x =>
    have hstep : close_session st =
        ⟨none, st.nextId, st.started, st.stopped ++ [x]⟩ := by
      simp [close_session, hc]
    rw [hstep]
    simp only [SessInv]
    obtain ⟨hmem, hnstop, hlen⟩ := hlive x hc
    refine ⟨hnd1, ?_, hbound, ?_, ?_, ?_⟩
    · simp [List.nodup_append, hnd2, hnstop]
    · intro y hy
      rcases List.mem_append.1 hy with hy | hy
      · exact hsub _ hy
      · simp at hy; subst hy; exact hmem
    · intro y hy
      exact absurd hy (by simp)
    · intro _
      simp [hlen]

theorem sessInv_runSessOps (ops : List SessOp) : SessInv (runSessOps ops) := by
  unfold runSessOps
  have main : ∀ (l : List SessOp) (st : SessionSt), SessInv st →
      SessInv (l.foldl applySessOp st) := by
    intro l
    induction l with
    | nil => intro st h; exact h
    | cons op rest ih =>
      intro st h
      simp only [List.foldl_cons]
      apply ih
      cases op with
      | acquire => exact sessInv_get st h
      | release => exact sessInv_close st h
  exact main ops initSessionSt sessInv_init

/-! ## The claims -/

/-- C4: for every input text, the command extractor returns exactly the
ordered sequence of substrings enclosed in `<pymol>...</pymol>` delimiter
pairs, in document order, each trimmed of leading/trailing whitespace and
dropped when empty after trimming; delimiters pair non-greedily, bodies
may span multiple lines (char lists are unrestricted), and an unclosed
delimiter yields no match for its span.  Stated compositionally: on any
text interleaving tag-free separators with well-formed blocks the
extractor returns precisely the trimmed non-empty block bodies; a
trailing unclosed block yields nothing; and the nearest following close
delimiter is the one that pairs (concrete check). -/
theorem claim4_extractor :
    (∀ (s0 : List Char) (pairs : List (List Char × List Char)),
       LtFree s0 → (∀ p ∈ pairs, LtFree p.1 ∧ LtFree p.2) →
       extract_commands (String.mk (renderBlocks s0 pairs)) =
         (pairs.map Prod.fst).filterMap keepStripped) ∧
    (∀ s0 b : List Char, LtFree s0 → LtFree b →
       extract_commands (String.mk (s0 ++ openTag ++ b)) = []) ∧
    extract_commands "<pymol>a</pymol>b</pymol>" = ["a"] := by
  refine ⟨?_, ?_, by decide⟩
  · intro s0 pairs h0 hall
    show (extractRaw (renderBlocks s0 pairs)).filterMap keepStripped = _
    rw [extractRaw_renderBlocks pairs s0 h0 hall]
  · intro s0 b h0 hb
    show (extractRaw (s0 ++ openTag ++ b)).filterMap keepStripped = []
    rw [extractRaw_unclosed s0 b h0 hb]
    rfl

/-- Witness for C4 at the spec's concrete vectors: the two-block example
(with one body needing trimming) and the unclosed-block example. -/
theorem claim4_witness :
    extract_commands
        (String.mk (renderBlocks [] [("a".data, "text".data), ("  b  ".data, [])])) =
      ["a", "b"] ∧
    extract_commands (String.mk ([] ++ openTag ++ "a".data)) = [] := by
  have h := claim4_extractor
  constructor
  · rw [h.1 [] [("a".data, "text".data), ("  b  ".data, [])] (by decide) (by decide)]
    decide
  · exact h.2.1 [] "a".data (by decide) (by decide)

/-- C1 fails on the code: in the three-turn scenario, the failure
descriptor produced in turn 1 is pending after turn 1, is consumed into
the user context built in turn 2 (the user did not quit first — turn 2 is
conversational, and afterwards the buffer is empty), but the model call
of turn 2 raises, the consuming user turn is popped, and the descriptor
ends up in no committed user message of the final history. -/
theorem claim1_counterexample :
    (run_agent (initialAgentState Mode.guided) [scen1Turn1]).1.pending = [scen1Desc] ∧
    (run_agent (initialAgentState Mode.guided) [scen1Turn1, scen1Turn2]).2 = false ∧
    (run_agent (initialAgentState Mode.guided) [scen1Turn1, scen1Turn2]).1.pending = [] ∧
    (run_agent (initialAgentState Mode.guided)
        [scen1Turn1, scen1Turn2, scen1Turn3]).2 = true ∧
    ((run_agent (initialAgentState Mode.guided)
        [scen1Turn1, scen1Turn2, scen1Turn3]).1.history.all
      (fun t => !(t.role == Role.user && containsSub scen1Desc t.content))) = true := by
  decide

/-- C1 (amended): every descriptor pending at the start of a
conversational turn is consumed — it occurs textually in the user message
built for that turn, and the pending buffer is restarted (the new buffer
holds only the new turn's outcomes).  That message is committed to the
history exactly when the model call succeeds; when the model call raises,
the consuming user turn is removed again and the cleared buffer is not
restored, so the descriptors are lost.  Hence a descriptor reaches a
committed user message unless the user quits before a conversational turn
is built or the model call of the consuming turn fails. -/
theorem claim1_pending_consumption (llm : List Turn → Except String String)
    (exec : String → Except String String) (sessionState : String)
    (st : AgentState) (raw : String) (h : Conversational raw) :
    (∀ d ∈ st.pending,
       isSubstr d (buildUserMessage (stripStr raw) sessionState st.mode st.pending)) ∧
    (∀ reply,
       llm (st.history ++
           [⟨Role.user, buildUserMessage (stripStr raw) sessionState st.mode st.pending⟩]) =
         .ok reply →
       runAgentStep llm exec sessionState st raw =
         .next ⟨st.history ++
             [⟨Role.user, buildUserMessage (stripStr raw) sessionState st.mode st.pending⟩,
              ⟨Role.assistant, reply⟩], st.mode,
            processCommands exec [] (extract_commands reply)⟩) ∧
    (∀ e,
       llm (st.history ++
           [⟨Role.user, buildUserMessage (stripStr raw) sessionState st.mode st.pending⟩]) =
         .error e →
       runAgentStep llm exec sessionState st raw = .next ⟨st.history, st.mode, []⟩) := by
  refine ⟨?_, ?_, ?_⟩
  · intro d hd
    exact isSubstr_buildUserMessage (stripStr raw) sessionState st.mode st.pending d hd
  · intro reply hok
    rw [runAgentStep_conv llm exec sessionState st raw h, hok]
  · intro e herr
    rw [runAgentStep_conv llm exec sessionState st raw h, herr]

/-- Witness for C1 (amended): with one pending descriptor and a failing
model, the descriptor occurs in the built message and the step rolls the
history back with an empty buffer. -/
theorem claim1_witness :
    isSubstr "  desc" (buildUserMessage (stripStr "hello") "" Mode.guided ["  desc"]) ∧
    runAgentStep apiDown alwaysRaise "" ⟨[], Mode.guided, ["  desc"]⟩ "hello" =
      .next ⟨[], Mode.guided, []⟩ := by
  have h := claim1_pending_consumption apiDown alwaysRaise ""
    ⟨[], Mode.guided, ["  desc"]⟩ "hello" (by decide)
  exact ⟨h.1 "  desc" (by simp), h.2.2 "api down" rfl⟩

/-- C2: if the model call raises during a conversational turn, the
just-appended user turn is removed, leaving the history exactly as it was
before the attempt, and the loop re-enters awaiting input (a `.next`
outcome, not a termination). -/
theorem claim2_rollback_on_model_failure (llm : List Turn → Except String String)
    (exec : String → Except String String) (sessionState : String)
    (st : AgentState) (raw : String) (e : String) (h : Conversational raw)
    (herr : llm (st.history ++
        [⟨Role.user, buildUserMessage (stripStr raw) sessionState st.mode st.pending⟩]) =
      .error e) :
    runAgentStep llm exec sessionState st raw = .next ⟨st.history, st.mode, []⟩ := by
  rw [runAgentStep_conv llm exec sessionState st raw h, herr]

/-- Witness for C2: a failing model call on a non-empty history. -/
theorem claim2_witness :
    runAgentStep apiDown alwaysRaise ""
        ⟨[⟨Role.user, "old"⟩, ⟨Role.assistant, "reply"⟩], Mode.expert, []⟩ "hello" =
      .next ⟨[⟨Role.user, "old"⟩, ⟨Role.assistant, "reply"⟩], Mode.expert, []⟩ :=
  claim2_rollback_on_model_failure apiDown alwaysRaise ""
    ⟨[⟨Role.user, "old"⟩, ⟨Role.assistant, "reply"⟩], Mode.expert, []⟩ "hello"
    "api down" (by decide) rfl

/-- C3: the command loop attempts every extracted command in
left-to-right order: the resulting pending buffer is the in-order
concatenation of one descriptor per attempted command — a failure
descriptor when the executor raises, a success descriptor when it
returns non-empty output, nothing for empty output — so a failing
command aborts neither its siblings (the fold continues past it) nor the
turn nor the loop (the step still returns `.next` with the assistant
reply committed). -/
theorem claim3_commands_all_attempted (exec : String → Except String String) :
    (∀ cmds pending : List String,
       processCommands exec pending cmds =
         pending ++ cmds.filterMap (cmdDescriptor exec)) ∧
    (∀ (llm : List Turn → Except String String) (sessionState : String)
       (st : AgentState) (raw reply : String), Conversational raw →
       llm (st.history ++
           [⟨Role.user, buildUserMessage (stripStr raw) sessionState st.mode st.pending⟩]) =
         .ok reply →
       runAgentStep llm exec sessionState st raw =
         .next ⟨st.history ++
             [⟨Role.user, buildUserMessage (stripStr raw) sessionState st.mode st.pending⟩,
              ⟨Role.assistant, reply⟩], st.mode,
            (extract_commands reply).filterMap (cmdDescriptor exec)⟩) := by
  constructor
  · intro cmds pending
    exact processCommands_eq_filterMap exec cmds pending
  · intro llm sessionState st raw reply h hok
    rw [runAgentStep_conv llm exec sessionState st raw h]
    simp only [hok]
    rw [processCommands_eq_filterMap exec (extract_commands reply) []]
    simp

/-- Witness for C3 at the spec's scenario: a reply with three commands
whose second raises — all three are attempted, the buffer holds exactly
their three descriptors in order, and the loop continues. -/
theorem claim3_witness :
    runAgentStep threeCmdLlm secondFails "" (initialAgentState Mode.guided) "go" =
      .next ⟨[⟨Role.user, buildUserMessage (stripStr "go") "" Mode.guided []⟩,
              ⟨Role.assistant, "<pymol>c1</pymol><pymol>c2</pymol><pymol>c3</pymol>"⟩],
             Mode.guided,
             [okDesc "c1" "out-c1", failDesc "c2" "boom", okDesc "c3" "out-c3"]⟩ := by
  have h := (claim3_commands_all_attempted secondFails).2 threeCmdLlm ""
    (initialAgentState Mode.guided) "go"
    "<pymol>c1</pymol><pymol>c2</pymol><pymol>c3</pymol>" (by decide) rfl
  rw [h]
  decide

/-- C5: once the model reply is received, the assistant turn is appended
to the history unconditionally — the step's history component is the same
for every executor behaviour (commands, including failing ones, influence
only the pending buffer). -/
theorem claim5_reply_committed (llm : List Turn → Except String String)
    (sessionState : String) (st : AgentState) (raw reply : String)
    (h : Conversational raw)
    (hok : llm (st.history ++
        [⟨Role.user, buildUserMessage (stripStr raw) sessionState st.mode st.pending⟩]) =
      .ok reply) :
    ∀ exec : String → Except String String,
      runAgentStep llm exec sessionState st raw =
        .next ⟨st.history ++
            [⟨Role.user, buildUserMessage (stripStr raw) sessionState st.mode st.pending⟩,
             ⟨Role.assistant, reply⟩], st.mode,
           processCommands exec [] (extract_commands reply)⟩ := by
  intro exec
  rw [runAgentStep_conv llm exec sessionState st raw h, hok]

/-- Witness for C5: the reply embedding a command whose execution raises
is still committed as the assistant turn. -/
theorem claim5_witness :
    runAgentStep replyWithCmd alwaysRaise "" (initialAgentState Mode.guided) "hi" =
      .next ⟨[⟨Role.user, buildUserMessage (stripStr "hi") "" Mode.guided []⟩,
              ⟨Role.assistant, "run <pymol>c1</pymol>"⟩],
             Mode.guided, [failDesc "c1" "boom"]⟩ := by
  have h := claim5_reply_committed replyWithCmd "" (initialAgentState Mode.guided)
    "hi" "run <pymol>c1</pymol>" (by decide) rfl alwaysRaise
  rw [h]
  decide

/-- C6 fails on the code as stated: when the engine reports zero loaded
objects but a non-empty selection list, the report is not the single
no-objects line — the selections section is appended after it. -/
theorem claim6_counterexample :
    emptyWithSelection.objects = [] ∧
    get_session_state emptyWithSelection ≠ "No objects loaded." ∧
    get_session_state emptyWithSelection =
      "No objects loaded.\nActive selections:\n  - sel1: 3 atoms" := by
  decide

/-- C6 (amended): the report is the objects section — the single
no-objects line when zero objects are loaded, otherwise a header line
plus one line per object with its name, atom count and comma-joined
chains (marker `none` when the join is empty, in particular for zero
chains) — followed by the selections section (header plus one line per
selection with name and atom count) exactly when at least one selection
exists, even when zero objects are loaded; with no selections the
section is omitted entirely, so the zero-objects report is the single
line only in that case. -/
theorem claim6_report_structure (v : SessionView) :
    get_session_state v = sessionReportSpec v ∧
    (v.objects = [] → v.selections = [] →
       get_session_state v = "No objects loaded.") ∧
    (∀ obj, v.chainsOf obj = [] →
       objectLine v obj =
         "  - " ++ obj ++ ": " ++ toString (v.atomCount obj) ++ " atoms, chains: " ++ "none") := by
  refine ⟨get_session_state_eq_spec v, ?_, ?_⟩
  · intro h1 h2
    rw [get_session_state_eq_spec v]
    unfold sessionReportSpec
    simp [h1, h2]
  · intro obj hch
    simp [objectLine, hch, joinSep]

/-- Witness for C6 (amended) at the spec's example — one object `X` with
5 atoms and chains A, B, no selections — and at the all-empty view. -/
theorem claim6_witness :
    get_session_state oneObjectView = sessionReportSpec oneObjectView ∧
    get_session_state oneObjectView = "Loaded objects:\n  - X: 5 atoms, chains: A, B" ∧
    get_session_state ⟨[], [], fun _ => 0, fun _ => []⟩ = "No objects loaded." := by
  have h1 := claim6_report_structure oneObjectView
  have h2 := claim6_report_structure ⟨[], [], fun _ => 0, fun _ => []⟩
  exact ⟨h1.1, by decide, h2.2.1 rfl rfl⟩

/-- C7: `execute_command` restores `sys.stdout` to its prior value on
every exit path (including when the session's `cmd.do` raises: the
`finally` runs), propagates a raised exception unchanged to the caller,
and is a no-op returning empty output on whitespace-only input. -/
theorem claim7_executor (sessionDo : String → Except String String)
    (cmdString : String) (st : SysState) :
    ((execute_command sessionDo cmdString st).2.stdout = st.stdout) ∧
    (∀ e, sessionDo (stripStr cmdString) = .error e → stripStr cmdString ≠ "" →
       (execute_command sessionDo cmdString st).1 = .error e) ∧
    (stripStr cmdString = "" → execute_command sessionDo cmdString st = (.ok "", st)) := by
  by_cases hc : stripStr cmdString = ""
  · refine ⟨?_, ?_, fun _ => ?_⟩
    · simp [execute_command, hc]
    · intro e _ hne
      exact absurd hc hne
    · simp [execute_command, hc]
  · refine ⟨?_, ?_, fun h => absurd h hc⟩
    · simp only [execute_command]
      rw [if_neg hc]
      cases hdo : sessionDo (stripStr cmdString) with
      | error e => simp [hdo]
      | ok printed => simp [hdo]
    · intro e hdo _
      simp only [execute_command]
      rw [if_neg hc]
      simp [hdo]

/-- Witness for C7: a raising session leaves stdout restored and the
exception surfaced; whitespace-only input is a no-op. -/
theorem claim7_witness :
    (execute_command (fun _ => .error "bad") "color red" ⟨OutChannel.standard⟩).2.stdout =
      OutChannel.standard ∧
    (execute_command (fun _ => .error "bad") "color red" ⟨OutChannel.standard⟩).1 =
      Except.error "bad" ∧
    execute_command (fun _ => .error "bad") "   " ⟨OutChannel.standard⟩ =
      (Except.ok "", ⟨OutChannel.standard⟩) := by
  have h1 := claim7_executor (fun _ => .error "bad") "color red" ⟨OutChannel.standard⟩
  have h2 := claim7_executor (fun _ => .error "bad") "   " ⟨OutChannel.standard⟩
  exact ⟨h1.1, h1.2.1 "bad" rfl (by decide), h2.2.2 (by decide)⟩

/-- C8: the handle returned by `get_session` is stable — a second call
returns the same handle and state (lazy creation happens at most once);
when a handle is already live, `get_session` returns it without starting
anything; a repeated `close_session` is a no-op performing no second
teardown; and along every sequence of acquire/release operations the
session invariant holds: instances are started at most once, stopped at
most once (`stopped.Nodup` — teardown exactly once per instance), only
started instances are stopped, and at most one instance is live at any
time. -/
theorem claim8_session_singleton :
    (∀ st : SessionSt, get_session (get_session st).2 = get_session st) ∧
    (∀ (st : SessionSt) (x : Nat), st.current = some x → get_session st = (x, st)) ∧
    (∀ st : SessionSt, close_session (close_session st) = close_session st) ∧
    (∀ ops : List SessOp, SessInv (runSessOps ops)) := by
  refine ⟨?_, ?_, ?_, sessInv_runSessOps⟩
  · intro st
    cases hc : st.current with
    | some x => simp [get_session, hc]
    | none => simp [get_session, hc]
  · intro st x hc
    simp [get_session, hc]
  · intro st
    cases hc : st.current with
    | some x => simp [close_session, hc]
    | none => simp [close_session, hc]

/-- Witness for C8 at concrete states and a concrete operation script. -/
theorem claim8_witness :
    get_session (get_session initSessionSt).2 = get_session initSessionSt ∧
    get_session ⟨some 5, 6, [0, 5], [0]⟩ = (5, ⟨some 5, 6, [0, 5], [0]⟩) ∧
    close_session (close_session ⟨some 5, 6, [0, 5], [0]⟩) =
      close_session ⟨some 5, 6, [0, 5], [0]⟩ ∧
    SessInv (runSessOps
      [SessOp.acquire, SessOp.acquire, SessOp.release, SessOp.release, SessOp.acquire]) := by
  have h := claim8_session_singleton
  exact ⟨h.1 initSessionSt, h.2.1 _ 5 rfl, h.2.2.1 _, h.2.2.2 _⟩

/-- C9: a mode-keyword input (after stripping, case-insensitively)
updates only the mode and re-enters awaiting input: the history and the
pending buffer are unchanged, the result does not depend on the model or
executor oracles (neither is consulted), and every subsequently built
user message carries the current mode's label. -/
theorem claim9_mode_switch (st : AgentState) (raw : String) :
    (lowerStr (stripStr raw) = "guided" → stripStr raw ≠ "" →
       ∀ (llm : List Turn → Except String String)
         (exec : String → Except String String) (sessionState : String),
         runAgentStep llm exec sessionState st raw =
           .next ⟨st.history, Mode.guided, st.pending⟩) ∧
    (lowerStr (stripStr raw) = "expert" → stripStr raw ≠ "" →
       ∀ (llm : List Turn → Except String String)
         (exec : String → Except String String) (sessionState : String),
         runAgentStep llm exec sessionState st raw =
           .next ⟨st.history, Mode.expert, st.pending⟩) ∧
    (∀ (m : Mode) (u ss : String) (pending : List String),
       isSubstr ("Current mode: " ++ m.label) (buildUserMessage u ss m pending)) := by
  refine ⟨?_, ?_, fun m u ss pending => modeLabel_in_buildUserMessage u ss m pending⟩
  · intro hg hne llm exec sessionState
    have hq : lowerStr (stripStr raw) ∉ quitWords := by rw [hg]; decide
    simp only [runAgentStep, if_neg hne, if_neg hq, if_pos hg]
  · intro hg hne llm exec sessionState
    have hq : lowerStr (stripStr raw) ∉ quitWords := by rw [hg]; decide
    have hng : ¬lowerStr (stripStr raw) = "guided" := by rw [hg]; decide
    simp only [runAgentStep, if_neg hne, if_neg hq, if_neg hng, if_pos hg]

/-- Witness for C9: the input `" EXPERT "` (stripped, lowercased) flips
the mode in place with history and pending untouched, and the next built
message carries the new label. -/
theorem claim9_witness :
    runAgentStep apiDown alwaysRaise ""
        ⟨[⟨Role.user, "x"⟩], Mode.guided, ["p"]⟩ " EXPERT " =
      .next ⟨[⟨Role.user, "x"⟩], Mode.expert, ["p"]⟩ ∧
    isSubstr ("Current mode: " ++ Mode.label Mode.expert)
      (buildUserMessage "next" "" Mode.expert []) := by
  have h := claim9_mode_switch ⟨[⟨Role.user, "x"⟩], Mode.guided, ["p"]⟩ " EXPERT "
  exact ⟨h.2.1 (by decide) (by decide) apiDown alwaysRaise "", h.2.2 Mode.expert "next" "" []⟩

/-- C10: every value in the dict returned by `per_residue_rmsd` is
non-negative; a residue for which `rms_cur` returns a negative sentinel
contributes no entry; and a residue for which `rms_cur` raises
contributes the entry `0.0` (the exception is mapped to `0.0`, which
passes the `val >= 0` filter and is the same entry a perfect per-residue
match would produce). -/
theorem claim10_rmsd_values (rmsCur : String → String → Except Unit Rat)
    (mobile target : String) (residues : List Residue) :
    (∀ p ∈ per_residue_rmsd rmsCur mobile target residues, 0 ≤ p.2) ∧
    (∀ r ∈ residues, rmsCur (mobileSel mobile r) (targetSel target r) = .error () →
       (pyInt r.resi, (0 : Rat)) ∈ per_residue_rmsd rmsCur mobile target residues) ∧
    (∀ (r : Residue) (rest : List Residue),
       residueVal rmsCur mobile target r < 0 →
       per_residue_rmsd rmsCur mobile target (r :: rest) =
         per_residue_rmsd rmsCur mobile target rest) := by
  refine ⟨?_, ?_, ?_⟩
  · intro p hp
    unfold per_residue_rmsd at hp
    rw [rmsdLoop_eq_filterMap] at hp
    simp only [List.nil_append] at hp
    obtain ⟨r, _, hentry⟩ := List.mem_filterMap.1 hp
    simp only [rmsdEntry] at hentry
    by_cases hv : (0 : Rat) ≤ residueVal rmsCur mobile target r
    · rw [if_pos hv] at hentry
      simp only [Option.some.injEq] at hentry
      rw [← hentry]
      exact hv
    · rw [if_neg hv] at hentry
      exact absurd hentry (by simp)
  · intro r hr herr
    unfold per_residue_rmsd
    rw [rmsdLoop_eq_filterMap]
    simp only [List.nil_append]
    apply List.mem_filterMap.2
    refine ⟨r, hr, ?_⟩
    have hval : residueVal rmsCur mobile target r = 0 := by
      simp [residueVal, herr]
    simp [rmsdEntry, hval]
  · intro r rest hv
    unfold per_residue_rmsd
    rw [rmsdLoop_eq_filterMap, rmsdLoop_eq_filterMap]
    simp only [List.nil_append, List.filterMap_cons]
    rw [show rmsdEntry rmsCur mobile target r = none by
      simp [rmsdEntry, not_le.2 hv]]

/-- Witness for C10: with a raising oracle the residue appears with value
`0`; with the `-1` sentinel oracle the leading residue is omitted. -/
theorem claim10_witness :
    (pyInt "1", (0 : Rat)) ∈ per_residue_rmsd errOracle "m" "t" [⟨"A", "1"⟩] ∧
    per_residue_rmsd negOracle "m" "t" [⟨"A", "2"⟩, ⟨"A", "1"⟩] =
      per_residue_rmsd negOracle "m" "t" [⟨"A", "1"⟩] := by
  have h1 := claim10_rmsd_values errOracle "m" "t" [⟨"A", "1"⟩]
  have h2 := claim10_rmsd_values negOracle "m" "t" [⟨"A", "2"⟩, ⟨"A", "1"⟩]
  refine ⟨h1.2.1 ⟨"A", "1"⟩ (by simp) rfl, ?_⟩
  have := h2.2.2 ⟨"A", "2"⟩ [⟨"A", "1"⟩] (by decide)
  exact this

end PymolAgent
